import Mathlib

/-!
Shallow embedding of `src/graphql-helper.ts` and `src/index.ts` of
`contentful-graphql-validator`, together with proofs about the embedded
functions.

Modelling conventions:
* GraphQL AST nodes are embedded structurally; a `SelectionSetNode` is
  represented by its list of selections (its only relevant payload), while
  the distinction between a selection-set node and its `selections` array
  in an ancestor chain is kept by separate `Anc` constructors.
* JavaScript runtime values are embedded as `JsValue`; `undefined` is a
  distinct value, numbers are rationals (binary floating-point rounding is
  not modelled; no result proved here depends on a numeric value).
* Thrown `Error`s become `Except Err` results.  `Err.typeError` models a
  JavaScript `TypeError` thrown by a property access on `undefined` (or a
  method call on a node of an unexpected shape); `Err.fuel` is an artificial
  out-of-fuel marker for the fragment-resolution recursion, unreachable for
  the fuel chosen by the top-level entry point on chains produced by the
  traversal.
* Object identity (JavaScript reference equality, used by the source for
  `Map` keys and `Array.prototype.includes`) is modelled by structural
  equality of the embedded nodes.
-/

namespace GQLV

/-- GraphQL literal value nodes (`ValueNode` in the `graphql` package).
Int and float literals carry their source text, as in the AST.  Object
literals are the ordered list of `(field name, value)` pairs. -/
inductive ValueNode where
  | nullV
  | intV (value : String)
  | floatV (value : String)
  | stringV (value : String)
  | boolV (value : Bool)
  | enumV (value : String)
  | listV (values : List ValueNode)
  | objectV (fields : List (String × ValueNode))
  | variableV (name : String)

/-- A field argument (`ArgumentNode`). -/
structure Argument where
  name : String
  value : ValueNode

/-- A selection (`SelectionNode`): field, fragment spread or inline
fragment.  A selection set is represented by its list of selections. -/
inductive Selection where
  | field (name : String) (arguments : List Argument)
      (selectionSet : Option (List Selection))
  | fragmentSpread (name : String)
  | inlineFragment (typeCondition : Option String)
      (selectionSet : List Selection)

/-- A field node (`FieldNode`), as passed to `validateField` and stored in
ancestor chains. -/
structure Field where
  name : String
  arguments : List Argument
  selectionSet : Option (List Selection)

/-- Converts a field selection to a `Field` node. -/
def Selection.asField (name : String) (arguments : List Argument)
    (selectionSet : Option (List Selection)) : Field :=
  ⟨name, arguments, selectionSet⟩

/-- Operation kinds. -/
inductive OperationType where
  | query
  | mutation
  | subscription
  deriving DecidableEq

/-- Type nodes (`TypeNode`): named type, list type, or non-null wrapper. -/
inductive TypeN where
  | named (name : String)
  | listT (ofType : TypeN)
  | nonNull (ofType : TypeN)
  deriving DecidableEq

/-- A variable definition (`VariableDefinitionNode`): the variable's name
and its declared type. -/
structure VariableDefinition where
  name : String
  type : TypeN
  deriving DecidableEq

/-- An operation definition (`OperationDefinitionNode`). -/
structure OperationDefinition where
  operation : OperationType
  variableDefinitions : List VariableDefinition
  selectionSet : List Selection

/-- A fragment definition (`FragmentDefinitionNode`). -/
structure FragmentDefinition where
  name : String
  typeCondition : String
  selectionSet : List Selection

/-- A top-level definition of a document.  `typeDef` stands for any
type-system definition (such as the `type MyType` of the test suite); it
contains no executable selections, so its payload beyond the name is
irrelevant to the validator. -/
inductive Definition where
  | operation (o : OperationDefinition)
  | fragment (f : FragmentDefinition)
  | typeDef (name : String)

/-- A GraphQL document (`DocumentNode`). -/
structure Document where
  definitions : List Definition

/-- An entry of an ancestor chain as produced by `visit`: either an AST
node or one of the arrays (`definitions`, `selections`) the traversal
passes through.  Arrays have no `kind` property. -/
inductive Anc where
  | document (d : Document)
  | definitions (l : List Definition)
  | operationDefinition (o : OperationDefinition)
  | fragmentDefinition (f : FragmentDefinition)
  | selectionSet (selections : List Selection)
  | selections (l : List Selection)
  | field (f : Field)
  | inlineFragment (typeCondition : Option String)
      (selectionSet : List Selection)

/-- The node argument of `isInRoot`: a `FieldNode` or a
`FragmentSpreadNode`. -/
inductive SelNode where
  | field (f : Field)
  | fragmentSpread (name : String)

/-- Result of `isInRoot`: `{ isRoot: false }` or
`{ isRoot: true, container }`.  The container keeps the raw ancestor entry,
mirroring the source's unchecked cast to
`FragmentDefinitionNode | OperationDefinitionNode`. -/
inductive RootResult where
  | notRoot
  | root (container : Anc)

/-! ### Structural equality (stand-in for JavaScript reference equality) -/

mutual

/-- Equality of value nodes. -/
def beqValueNode : ValueNode → ValueNode → Bool
  | .nullV, .nullV => true
  | .intV a, .intV b => a == b
  | .floatV a, .floatV b => a == b
  | .stringV a, .stringV b => a == b
  | .boolV a, .boolV b => a == b
  | .enumV a, .enumV b => a == b
  | .listV a, .listV b => beqValueList a b
  | .objectV a, .objectV b => beqObjFields a b
  | .variableV a, .variableV b => a == b
  | _, _ => false

/-- Equality of lists of value nodes. -/
def beqValueList : List ValueNode → List ValueNode → Bool
  | [], [] => true
  | a :: as, b :: bs => beqValueNode a b && beqValueList as bs
  | _, _ => false

/-- Equality of object-literal field lists. -/
def beqObjFields :
    List (String × ValueNode) → List (String × ValueNode) → Bool
  | [], [] => true
  | (n, a) :: as, (m, b) :: bs =>
      n == m && beqValueNode a b && beqObjFields as bs
  | _, _ => false

end

instance : BEq ValueNode := ⟨beqValueNode⟩

/-- Equality of arguments. -/
def beqArgument (a b : Argument) : Bool :=
  a.name == b.name && beqValueNode a.value b.value

instance : BEq Argument := ⟨beqArgument⟩

mutual

/-- Equality of selections. -/
def beqSelection : Selection → Selection → Bool
  | .field n a c, .field n' a' c' =>
      n == n' && beqArgList a a' && beqOptSels c c'
  | .fragmentSpread n, .fragmentSpread n' => n == n'
  | .inlineFragment t c, .inlineFragment t' c' =>
      t == t' && beqSelList c c'
  | _, _ => false

/-- Equality of argument lists. -/
def beqArgList : List Argument → List Argument → Bool
  | [], [] => true
  | a :: as, b :: bs => beqArgument a b && beqArgList as bs
  | _, _ => false

/-- Equality of selection lists. -/
def beqSelList : List Selection → List Selection → Bool
  | [], [] => true
  | a :: as, b :: bs => beqSelection a b && beqSelList as bs
  | _, _ => false

/-- Equality of optional selection sets. -/
def beqOptSels : Option (List Selection) → Option (List Selection) → Bool
  | none, none => true
  | some a, some b => beqSelList a b
  | _, _ => false

end

instance : BEq Selection := ⟨beqSelection⟩

/-- Equality of fragment definitions, the stand-in for the reference
identity the source relies on for `Map` keys and `Array.includes`. -/
def beqFragmentDefinition (a b : FragmentDefinition) : Bool :=
  a.name == b.name && a.typeCondition == b.typeCondition &&
    beqSelList a.selectionSet b.selectionSet

instance : BEq FragmentDefinition := ⟨beqFragmentDefinition⟩

/-! ### JavaScript runtime values -/

/-- A JavaScript runtime value, as produced by value-node resolution and as
stored in the caller's `variables` mapping. -/
inductive JsValue where
  | undefined
  | null
  | bool (b : Bool)
  | num (q : Rat)
  | nan
  | str (s : String)
  | list (l : List JsValue)
  | obj (fields : List (String × JsValue))

/-- The caller-supplied `variables` record: an ordered mapping from name to
value. -/
def Vars := List (String × JsValue)

/-- Property read `variables[name]`: the stored value, or `undefined` when
the key is absent. -/
def jsGet (vars : Vars) (name : String) : JsValue :=
  match List.find? (fun p => p.1 == name) vars with
  | some p => p.2
  | none => .undefined

/-- JavaScript truthiness: `undefined`, `null`, `false`, `0`, `NaN` and the
empty string are falsy; everything else (including empty arrays and
objects) is truthy. -/
def truthy : JsValue → Bool
  | .undefined => false
  | .null => false
  | .bool b => b
  | .num q => q != 0
  | .nan => false
  | .str s => s != ""
  | .list _ => true
  | .obj _ => true

/-- Numeric value of a list of decimal digit characters. -/
def digitsToNat (cs : List Char) : Nat :=
  cs.foldl (fun a c => 10 * a + (c.toNat - 48)) 0

/-- JavaScript `parseInt` on the source text of an int literal: optional
sign followed by a decimal digit prefix; no digits yields `NaN`.  (GraphQL
`IntValue` grammar guarantees a clean digit string.) -/
def parseIntJS (s : String) : JsValue :=
  let go : List Char → Bool → JsValue := fun cs neg =>
    let ds := cs.takeWhile Char.isDigit
    if ds.isEmpty then .nan
    else
      let n : Int := digitsToNat ds
      .num (Rat.ofInt (if neg then -n else n))
  match s.toList with
  | '-' :: rest => go rest true
  | '+' :: rest => go rest false
  | cs => go cs false

/-- JavaScript `parseFloat` on the source text of a float literal: optional
sign, integer digits, optional fraction, optional exponent; the decimal
value is kept exactly as a rational (binary rounding is not modelled). -/
def parseFloatJS (s : String) : JsValue :=
  let body : List Char → Bool → JsValue := fun cs neg =>
    let intDs := cs.takeWhile Char.isDigit
    let rest1 := cs.drop intDs.length
    let fracDs :=
      match rest1 with
      | '.' :: r => r.takeWhile Char.isDigit
      | _ => []
    let rest2 :=
      match rest1 with
      | '.' :: r => r.drop fracDs.length
      | _ => rest1
    if intDs.isEmpty && fracDs.isEmpty then .nan
    else
      let mantissa : Rat :=
        (digitsToNat intDs : Rat) +
          (digitsToNat fracDs : Rat) / ((10 : Rat) ^ fracDs.length)
      let expV : Int :=
        match rest2 with
        | 'e' :: r | 'E' :: r =>
          match r with
          | '-' :: r2 =>
            let eds := r2.takeWhile Char.isDigit
            if eds.isEmpty then 0 else -(digitsToNat eds : Int)
          | '+' :: r2 =>
            let eds := r2.takeWhile Char.isDigit
            (digitsToNat eds : Int)
          | _ =>
            let eds := r.takeWhile Char.isDigit
            (digitsToNat eds : Int)
        | _ => 0
      .num ((if neg then -mantissa else mantissa) * (10 : Rat) ^ expV)
  match s.toList with
  | '-' :: rest => body rest true
  | '+' :: rest => body rest false
  | cs => body cs false

mutual

/-- String conversion, as used by template-literal interpolation.  Number
formatting approximates JavaScript's (no result proved here depends on
it). -/
def jsString : JsValue → String
  | .undefined => "undefined"
  | .null => "null"
  | .bool true => "true"
  | .bool false => "false"
  | .num q => if q.den = 1 then toString q.num else toString q
  | .nan => "NaN"
  | .str s => s
  | .list l => String.intercalate "," (jsStringList l)
  | .obj _ => "[object Object]"

/-- String conversions of the elements of an array value. -/
def jsStringList : List JsValue → List String
  | [] => []
  | v :: rest => jsString v :: jsStringList rest

end

/-! ### Errors -/

/-- The errors the validator can raise.  Validation errors carry the data
interpolated into their message; `fragmentCycle` carries the full message
built at the throw site, as the source does.  `typeError` models a
JavaScript `TypeError` from an access on `undefined` or on a node of an
unexpected shape; `fuel` is the artificial out-of-fuel marker of the
embedded fragment-resolution recursion. -/
inductive Err where
  | opType
  | opCount
  | varType
  | argType (fieldName : String)
  | previewMismatch (fieldName : String) (variableValue : JsValue)
  | rootPreviewMissing (fieldName : String)
  | fragmentCycle (message : String)
  | typeError
  | fuel

/-- The exact message of each validation error, per the source's `throw new
Error(...)` sites. -/
def errMessage : Err → String
  | .opType => "The operation must be a query"
  | .opCount => "The document must have exactly 1 operation."
  | .varType => "The preview variable must be of type Boolean"
  | .argType f => "Field with non-boolean preview argument value: " ++ f
  | .previewMismatch f v =>
      "Preview mismatch for field '" ++ f ++ "'. The variable is '" ++
        jsString v ++ "', but the argument has another value"
  | .rootPreviewMissing f =>
      "Root field does not have a preview argument set to true: " ++ f
  | .fragmentCycle m => m
  | .typeError => "TypeError"
  | .fuel => "out of fuel"

/-! ### Root classification (`isInRoot`) -/

/-- JavaScript array indexing `l[i]` for a possibly negative index:
`undefined` (here `none`) outside the bounds. -/
def jsIdx (l : List Anc) (i : Int) : Option Anc :=
  if 0 ≤ i then l[i.toNat]? else none

/-- The check `"kind" in d && d.kind === Kind.DOCUMENT`: true exactly for a
document node (arrays have no `kind` property and other nodes have a
different one). -/
def isDocumentNode : Anc → Bool
  | .document _ => true
  | _ => false

/-- Embeds `GraphQLHelper.isInRoot`.  The positional reads
`ancestors[ancestors.length - k]` are kept as in the source; reading a
property of an out-of-bounds (`undefined`) entry is a `TypeError`. -/
def isInRoot (node : SelNode) (ancestors : List Anc) :
    Except Err RootResult :=
  match node with
  | .field _ =>
    -- const container = ancestors[ancestors.length - 2]
    match jsIdx ancestors ((ancestors.length : Int) - 2) with
    | none => .error .typeError       -- `container.kind` on `undefined`
    | some container =>
      match container with
      | .operationDefinition _ => .ok (.root container)   -- root field
      | .fragmentDefinition _ => .ok (.root container)    -- root fragment field
      | .inlineFragment _ _ =>                            -- root inline fragment field
        match jsIdx ancestors ((ancestors.length : Int) - 7) with
        | none => .error .typeError   -- `"kind" in d` on `undefined`
        | some d =>
          if isDocumentNode d then
            match jsIdx ancestors ((ancestors.length : Int) - 5) with
            | some c => .ok (.root c)
            | none => .error .typeError  -- unreachable: the chain has length at least 7 here
          else .ok .notRoot
      | _ => .ok .notRoot                                 -- nested field
  | .fragmentSpread _ =>
    match jsIdx ancestors ((ancestors.length : Int) - 4) with
    | none => .error .typeError       -- `"kind" in d` on `undefined`
    | some d =>
      if isDocumentNode d then
        match jsIdx ancestors ((ancestors.length : Int) - 2) with
        | some c => .ok (.root c)
        | none => .error .typeError   -- unreachable: the chain has length at least 4 here
      else .ok .notRoot

/-! ### Value resolution (`#resolveValueNode`) -/

/-- JavaScript property assignment `obj[k] = v` on a plain object with
string keys: an existing key keeps its original position and gets the new
value; a new key is appended. -/
def jsObjSet (m : List (String × JsValue)) (k : String) (v : JsValue) :
    List (String × JsValue) :=
  match m with
  | [] => [(k, v)]
  | (k', v') :: rest =>
      if k' == k then (k', v) :: rest else (k', v') :: jsObjSet rest k v

mutual

/-- Embeds `GraphQLHelper.#resolveValueNode`. -/
def resolveValueNode (vars : Vars) : ValueNode → JsValue
  | .nullV => .null
  | .intV v => parseIntJS v
  | .floatV v => parseFloatJS v
  | .objectV fields => .obj (resolveObjFields vars [] fields)
  | .listV vs => .list (resolveValueList vars vs)
  | .variableV n =>
      -- variables[value.name.value] ?? null
      match jsGet vars n with
      | .undefined => .null
      | .null => .null
      | v => v
  | .stringV v => .str v
  | .boolV b => .bool b
  | .enumV v => .str v

/-- The `for (const f of value.fields) obj[f.name.value] = ...` loop of the
object-literal case, with the object built so far as accumulator. -/
def resolveObjFields (vars : Vars) (acc : List (String × JsValue)) :
    List (String × ValueNode) → List (String × JsValue)
  | [] => acc
  | (n, v) :: rest =>
      resolveObjFields vars (jsObjSet acc n (resolveValueNode vars v)) rest

/-- Elementwise resolution of a list literal. -/
def resolveValueList (vars : Vars) : List ValueNode → List JsValue
  | [] => []
  | v :: rest => resolveValueNode vars v :: resolveValueList vars rest

end

/-- Embeds `GraphQLHelper.resolveArgumentValue`. -/
def resolveArgumentValue (argument : Argument) (vars : Vars) : JsValue :=
  resolveValueNode vars argument.value

/-! ### Document traversal (`visit`) -/

/-- A visit event, in traversal order: the nodes for which `validateDocument`
installs a visitor, with ancestor chains where the visitor receives them. -/
inductive VEvent where
  | op (o : OperationDefinition)
  | varDef (v : VariableDefinition)
  | field (f : Field) (ancestors : List Anc)
  | spread (name : String) (ancestors : List Anc)

mutual

/-- Visits the selections of one selection set.  `pre` is the ancestor
chain up to (excluding) the selection-set node, `whole` the full selection
list of the set (the `selections` array), and the last argument the
selections still to visit. -/
def visitSelections (pre : List Anc) (whole : List Selection) :
    List Selection → List VEvent
  | [] => []
  | s :: rest => visitOneSel pre whole s ++ visitSelections pre whole rest

/-- Visits one selection and, pre-order, its children. -/
def visitOneSel (pre : List Anc) (whole : List Selection) :
    Selection → List VEvent
  | .field n args child =>
      VEvent.field (Selection.asField n args child)
          (pre ++ [Anc.selectionSet whole]) ::
        (match child with
         | none => []
         | some c =>
             visitSelections
               (pre ++ [Anc.selectionSet whole, Anc.selections whole,
                 Anc.field (Selection.asField n args child)]) c c)
  | .fragmentSpread n => [VEvent.spread n (pre ++ [Anc.selectionSet whole])]
  | .inlineFragment tc isels =>
      visitSelections
        (pre ++ [Anc.selectionSet whole, Anc.selections whole,
          Anc.inlineFragment tc isels]) isels isels

end

/-- Visits the top-level definitions in order. -/
def visitDefs (doc : Document) (whole : List Definition) :
    List Definition → List VEvent
  | [] => []
  | .operation o :: rest =>
      VEvent.op o :: o.variableDefinitions.map VEvent.varDef ++
        visitSelections
          [Anc.document doc, Anc.definitions whole,
            Anc.operationDefinition o] o.selectionSet o.selectionSet ++
        visitDefs doc whole rest
  | .fragment f :: rest =>
      visitSelections
        [Anc.document doc, Anc.definitions whole, Anc.fragmentDefinition f]
        f.selectionSet f.selectionSet ++
      visitDefs doc whole rest
  | .typeDef _ :: rest => visitDefs doc whole rest

/-- One full document traversal, as a list of visit events in order. -/
def visitDocument (doc : Document) : List VEvent :=
  visitDefs doc doc.definitions doc.definitions

/-! ### Fragment usages (`getFragmentUsages`) -/

/-- A usage record: a fragment-spread node (identified by its name) paired
with a copy of its ancestor chain. -/
structure Usage where
  name : String
  ancestors : List Anc

/-- The fragment spreads collected by one document traversal, in order. -/
def collectSpreads (doc : Document) : List Usage :=
  (visitDocument doc).filterMap fun e =>
    match e with
    | .spread n anc => some ⟨n, anc⟩
    | _ => none

/-- Embeds the recomputation path of `getFragmentUsages`: every spread site
whose name matches the fragment's name, with its ancestor chain. -/
def getFragmentUsages (doc : Document) (fragment : FragmentDefinition) :
    List Usage :=
  (collectSpreads doc).filter fun u => u.name == fragment.name

/-- The mutable state of a `GraphQLHelper` instance relevant to the usage
cache: the document and the `#fragmentUsages` map, embedded as an ordered
association list. -/
structure Helper where
  document : Document
  fragmentUsages : List (FragmentDefinition × List Usage)

/-- A fresh helper for a document (constructor). -/
def Helper.init (doc : Document) : Helper := ⟨doc, []⟩

/-- Embeds `getFragmentUsages` with its cache: returns the cached sequence
on a hit, otherwise computes, stores and returns it. -/
def getFragmentUsagesC (h : Helper) (fragment : FragmentDefinition) :
    List Usage × Helper :=
  match List.find? (fun p => p.1 == fragment) h.fragmentUsages with
  | some p => (p.2, h)
  | none =>
      let usages := getFragmentUsages h.document fragment
      (usages, ⟨h.document, h.fragmentUsages ++ [(fragment, usages)]⟩)

/-! ### Root reachability (`#isFragmentUsedInRoot`) -/

/-- The message of a fragment-cycle error, exactly as the source builds it:
the visited names joined by `->`, with the repeated fragment's name
appended directly. -/
def cycleMessage (visited : List FragmentDefinition)
    (fragment : FragmentDefinition) : String :=
  "A fragment cycle has been detected: " ++
    String.intercalate "->" (visited.map FragmentDefinition.name) ++
    fragment.name

/-- The `usages.some(...)` loop of `#isFragmentUsedInRoot`.  `rec` is the
recursive resolution call for a container fragment.  The source's `visited`
array is mutated by pushes that are never undone, so the embedded loop
threads the updated list through every step and returns it. -/
def usagesLoop
    (rec : FragmentDefinition → List FragmentDefinition →
      Except Err (Bool × List FragmentDefinition)) :
    List Usage → List FragmentDefinition →
      Except Err (Bool × List FragmentDefinition)
  | [], visited => .ok (false, visited)
  | u :: rest, visited =>
    match isInRoot (.fragmentSpread u.name) u.ancestors with
    | .error e => .error e
    | .ok .notRoot => usagesLoop rec rest visited
    | .ok (.root container) =>
      match container with
      | .operationDefinition _ => .ok (true, visited)
      | .fragmentDefinition g =>
        match rec g visited with
        | .error e => .error e
        | .ok (true, visited') => .ok (true, visited')
        | .ok (false, visited') => usagesLoop rec rest visited'
      | _ => .error .typeError  -- the cast target is neither kind of definition

/-- Embeds `#isFragmentUsedInRoot`, with a fuel parameter bounding the
recursion depth (the source's recursion is bounded by the cycle check;
see `isFragmentUsedInRoot` for the fuel chosen at the entry point). -/
def fragRootAux (doc : Document) :
    Nat → FragmentDefinition → List FragmentDefinition →
      Except Err (Bool × List FragmentDefinition)
  | 0 => fun _ _ => .error .fuel
  | fuel + 1 => fun fragment visited =>
    if visited.contains fragment then
      .error (.fragmentCycle (cycleMessage visited fragment))
    else
      usagesLoop (fragRootAux doc fuel) (getFragmentUsages doc fragment)
        (visited ++ [fragment])

/-- Embeds the public, memoised `isFragmentUsedInRoot` as a pure function:
the memo only ever stores the value this computes, so a call with a fresh
`visited` path is observationally what every caller gets.  The fuel
`doc.definitions.length + 2` strictly exceeds the longest possible chain of
nested resolutions (each level pushes a distinct document fragment before
recursing, and a repeated one stops with a cycle error). -/
def isFragmentUsedInRoot (doc : Document) (fragment : FragmentDefinition) :
    Except Err Bool :=
  match fragRootAux doc (doc.definitions.length + 2) fragment [] with
  | .error e => .error e
  | .ok (b, _) => .ok b

/-! ### Field validation (`validateField`) -/

/-- The `node.arguments?.forEach(...)` loop of `validateField`: scans the
arguments, checking each one named `preview` and tracking the resolved
value of the last one seen (`undefined` while none was). -/
def argsLoop (fieldName : String) (previewVar : JsValue) (vars : Vars) :
    List Argument → JsValue → Except Err JsValue
  | [], previewArg => .ok previewArg
  | arg :: rest, previewArg =>
    if arg.name == "preview" then
      let v := resolveArgumentValue arg vars
      match v with
      | .null | .bool _ =>
        if (!truthy previewVar) != (!truthy v) then
          .error (.previewMismatch fieldName previewVar)
        else argsLoop fieldName previewVar vars rest v
      | _ => .error (.argType fieldName)
    else argsLoop fieldName previewVar vars rest previewArg

/-- Embeds `validateField`.  The source's local `previewVar` (read once as
`variables?.preview`) is written out as `jsGet vars "preview"` at each use
site. -/
def validateField (doc : Document) (node : Field) (ancestors : List Anc)
    (vars : Vars) : Except Err Unit :=
  match argsLoop node.name (jsGet vars "preview") vars node.arguments
      .undefined with
  | .error e => .error e
  | .ok previewArg =>
    -- if (previewVar && !previewArg) { ... }
    if truthy (jsGet vars "preview") && !truthy previewArg then
      match isInRoot (.field node) ancestors with
      | .error e => .error e
      | .ok .notRoot => .ok ()
      | .ok (.root container) =>
        match container with
        | .operationDefinition _ => .error (.rootPreviewMissing node.name)
        | .fragmentDefinition g =>
          match isFragmentUsedInRoot doc g with
          | .error e => .error e
          | .ok true => .error (.rootPreviewMissing node.name)
          | .ok false => .ok ()
        | _ => .error .typeError  -- the cast target is neither kind of definition
    else .ok ()

/-! ### Operation and variable checks -/

/-- Embeds `validateOperation`. -/
def validateOperation (node : OperationDefinition) : Except Err Unit :=
  if node.operation ≠ .query then .error .opType else .ok ()

/-- Embeds `validateVariableDefinition`. -/
def validateVariableDefinition (node : VariableDefinition) :
    Except Err Unit :=
  if node.name == "preview" then
    -- Unwrap non-null types (e.g. Boolean! => Boolean)
    match (match node.type with | .nonNull t => t | t => t) with
    | .listT _ => .error .varType
    | .named n => if n != "Boolean" then .error .varType else .ok ()
    | .nonNull _ => .error .typeError  -- `type.name.value` on a second wrapper; no parsed AST has one
  else .ok ()

/-! ### Document validation (`validateDocument`) -/

/-- Runs the traversal's visitor callbacks in order, fail-fast, counting
operation definitions. -/
def runEvents (doc : Document) (vars : Vars) :
    List VEvent → Nat → Except Err Nat
  | [], n => .ok n
  | .op o :: rest, n =>
    match validateOperation o with
    | .error e => .error e
    | .ok _ => runEvents doc vars rest (n + 1)
  | .varDef v :: rest, n =>
    match validateVariableDefinition v with
    | .error e => .error e
    | .ok _ => runEvents doc vars rest n
  | .field f anc :: rest, n =>
    match validateField doc f anc vars with
    | .error e => .error e
    | .ok _ => runEvents doc vars rest n
  | .spread _ _ :: rest, n => runEvents doc vars rest n

/-- Embeds the public `validateDocument` entry point (for an already-parsed
document). -/
def validateDocument (doc : Document) (vars : Vars) : Except Err Unit :=
  match runEvents doc vars (visitDocument doc) 0 with
  | .error e => .error e
  | .ok n => if n ≠ 1 then .error .opCount else .ok ()

/-! ### Specification-level definitions

Definitions in this section follow the wording of the design document or of
a claim (not the source); they exist to be compared against the embedded
source functions. -/

/-- Walks a reversed ancestor chain per the specified root-classification
rule: selection sets, selection arrays and inline fragments are
transparent, a field blocks, an operation or fragment definition is a
boundary. -/
def specAtRootGo : List Anc → Bool
  | [] => false
  | .selectionSet _ :: rest => specAtRootGo rest
  | .selections _ :: rest => specAtRootGo rest
  | .inlineFragment _ _ :: rest => specAtRootGo rest
  | .field _ :: _ => false
  | .operationDefinition _ :: _ => true
  | .fragmentDefinition _ :: _ => true
  | .document _ :: _ => false
  | .definitions _ :: _ => false

/-- The root-classification rule as the specification states it: a
selection is at root exactly when, walking its ancestor chain upward, an
operation or fragment definition is reached before any field, with inline
fragments and selection layers transparent at any depth. -/
def specAtRoot (ancestors : List Anc) : Bool :=
  specAtRootGo ancestors.reverse

/-- The boolean coercion exactly as claim C6 words it: null, false,
undefined and absent coerce to false; any other value to true. -/
def claimedCoercion : JsValue → Bool
  | .undefined => false
  | .null => false
  | .bool b => b
  | _ => true

/-- Object-literal resolution as claim C9 words it: the fields passed
through as given, each value resolved, duplicates not deduplicated. -/
def claimPassThrough (vars : Vars) (fields : List (String × ValueNode)) :
    List (String × JsValue) :=
  fields.map fun p => (p.1, resolveValueNode vars p.2)

/-- The key sequence a JavaScript object ends up with: first occurrences of
the names, in order. -/
def firstOccurrences (names : List String) : List String :=
  names.foldl (fun acc n => if acc.contains n then acc else acc ++ [n]) []

/-- The resolved value of the last field of an object literal carrying a
given name, if any. -/
def lastResolved (vars : Vars) (k : String)
    (fields : List (String × ValueNode)) : Option JsValue :=
  ((fields.filter fun p => p.1 == k).map
    fun p => resolveValueNode vars p.2).getLast?

/-- Whether a visit event is an operation-definition visit. -/
def isOpEvent : VEvent → Bool
  | .op _ => true
  | _ => false

/-- The number of operation definitions of a document (a static count,
independent of the traversal). -/
def countOpsDoc (doc : Document) : Nat :=
  doc.definitions.countP fun d =>
    match d with
    | .operation _ => true
    | _ => false

/-- Whether a visit event is a spread of the given name. -/
def isSpreadNamed (target : String) : VEvent → Bool
  | .spread n _ => n == target
  | _ => false

mutual

/-- Structural count of the spread sites of a name inside one selection
(independent of the traversal). -/
def countSpreadsSel (target : String) : Selection → Nat
  | .field _ _ none => 0
  | .field _ _ (some c) => countSpreadsSelList target c
  | .fragmentSpread n => if n == target then 1 else 0
  | .inlineFragment _ c => countSpreadsSelList target c

/-- Structural count of the spread sites of a name inside a selection
list. -/
def countSpreadsSelList (target : String) : List Selection → Nat
  | [] => 0
  | s :: rest => countSpreadsSel target s + countSpreadsSelList target rest

end

/-- Structural count of the spread sites of a name anywhere in a document,
including inside fragment definitions. -/
def countFragSpreads (doc : Document) (target : String) : Nat :=
  (doc.definitions.map fun d =>
    match d with
    | .operation o => countSpreadsSelList target o.selectionSet
    | .fragment f => countSpreadsSelList target f.selectionSet
    | .typeDef _ => 0).sum

/-- The fragment definitions of a document, in order. -/
def docFragments (doc : Document) : List FragmentDefinition :=
  doc.definitions.filterMap fun d =>
    match d with
    | .fragment f => some f
    | _ => none

mutual

/-- The names spread inside one selection. -/
def spreadNamesSel : Selection → List String
  | .field _ _ none => []
  | .field _ _ (some c) => spreadNamesList c
  | .fragmentSpread n => [n]
  | .inlineFragment _ c => spreadNamesList c

/-- The names spread inside a selection list. -/
def spreadNamesList : List Selection → List String
  | [] => []
  | s :: rest => spreadNamesSel s ++ spreadNamesList rest

end

/-- The names of the fragments spread inside the body of the named
fragment: the edges of the fragment-usage graph out of `n`. -/
def directUses (doc : Document) (n : String) : List String :=
  match (docFragments doc).find? (fun f => f.name == n) with
  | some f => spreadNamesList f.selectionSet
  | none => []

/-- One expansion step of a reachable-name set. -/
def stepNames (doc : Document) (s : List String) : List String :=
  (s ++ s.flatMap (directUses doc)).dedup

/-- Iterated expansion. -/
def iterNames (doc : Document) : Nat → List String → List String
  | 0, s => s
  | k + 1, s => iterNames doc k (stepNames doc s)

/-- The fragment names reachable from `n` in one or more steps of the
fragment-usage graph (`n` uses `m` when a spread of `m` occurs inside
`n`'s body). -/
def reachFrom (doc : Document) (n : String) : List String :=
  iterNames doc ((docFragments doc).length + 1) (directUses doc n)

/-- Whether the fragment-usage graph of a document is acyclic: no fragment
reaches itself. -/
def fragUsageAcyclic (doc : Document) : Bool :=
  (docFragments doc).all fun f => !(reachFrom doc f.name).contains f.name

/-- The shape, read back-to-front, of every ancestor chain the traversal
hands to a selection visitor: the enclosing selection set, then
alternating `(field | inline fragment, selections)` layers, down to the
enclosing executable definition, the definitions array and the document. -/
inductive RChain : List Anc → Prop where
  | baseOp (d : Document) (l : List Definition) (o : OperationDefinition)
      (s : List Selection) :
      RChain [.selectionSet s, .operationDefinition o, .definitions l,
        .document d]
  | baseFrag (d : Document) (l : List Definition) (f : FragmentDefinition)
      (s : List Selection) :
      RChain [.selectionSet s, .fragmentDefinition f, .definitions l,
        .document d]
  | consField (s sl : List Selection) (f : Field) (rest : List Anc)
      (h : RChain rest) :
      RChain (.selectionSet s :: .field f :: .selections sl :: rest)
  | consInline (s sl : List Selection) (tc : Option String)
      (isels : List Selection) (rest : List Anc) (h : RChain rest) :
      RChain (.selectionSet s :: .inlineFragment tc isels :: .selections sl
        :: rest)

/-- The root condition `isInRoot` actually implements on well-formed
chains (stated on the reversed chain): a field directly at the root of its
definition, a field exactly one inline-fragment layer below a
document-rooted definition, or a spread directly at the root. -/
def rootCondAmended (node : SelNode) (R : List Anc) : Prop :=
  (∃ f, node = SelNode.field f ∧
    (R.length = 4 ∨
      (R.length = 7 ∧ ∃ tc ls, R[1]? = some (Anc.inlineFragment tc ls)))) ∨
  (∃ n, node = SelNode.fragmentSpread n ∧ R.length = 4)

/-! ### Concrete fixtures -/

/-- The empty document (context for field-level checks that never consult
the document). -/
def d0 : Document := ⟨[]⟩

/-- Variables `{ preview: true }`. -/
def varsPT : Vars := [("preview", .bool true)]

/-- Variables `{ preview: false }`. -/
def varsPF : Vars := [("preview", .bool false)]

/-- The selection `myField`. -/
def fMyField : Selection := .field "myField" [] none

/-- The selection `myType { myField }`. -/
def fMyTypeSel : Selection := .field "myType" [] (some [fMyField])

/-- The field node for `myType`. -/
def fMyTypeField : Field := ⟨"myType", [], some [fMyField]⟩

/-- The operation of `query { myType { myField } }`. -/
def opScen : OperationDefinition := ⟨.query, [], [fMyTypeSel]⟩

/-- The document `query { myType { myField } }`. -/
def docScen : Document := ⟨[.operation opScen]⟩

/-- The ancestor chain the traversal hands to the visitor at `myType`. -/
def ancMyType : List Anc :=
  [.document docScen, .definitions docScen.definitions,
    .operationDefinition opScen, .selectionSet opScen.selectionSet]

/-- `fragment F on T { myField }`. -/
def fragF : FragmentDefinition := ⟨"F", "T", [.field "myField" [] none]⟩

/-- `fragment G on T { ...F ...F }`: two usages of `F`, both at the root of
`G`. -/
def fragG : FragmentDefinition :=
  ⟨"G", "T", [.fragmentSpread "F", .fragmentSpread "F"]⟩

/-- `query { x { ...G } } fragment F on T { myField } fragment G on T
{ ...F ...F }`: an acyclic fragment-usage graph in which resolving `F`
enters `G` twice. -/
def docC3 : Document :=
  ⟨[.operation ⟨.query, [], [.field "x" [] (some [.fragmentSpread "G"])]⟩,
    .fragment fragF, .fragment fragG]⟩

/-- `fragment A on T { ...B }`. -/
def fragA : FragmentDefinition := ⟨"A", "T", [.fragmentSpread "B"]⟩

/-- `fragment B on T { ...A }`. -/
def fragB : FragmentDefinition := ⟨"B", "T", [.fragmentSpread "A"]⟩

/-- `query { f } fragment A on T { ...B } fragment B on T { ...A }`: a
genuine `A -> B -> A` usage cycle. -/
def docC4 : Document :=
  ⟨[.operation ⟨.query, [], [.field "f" [] none]⟩,
    .fragment fragA, .fragment fragB]⟩

/-- A document with two operations whose first is a mutation. -/
def docCE5 : Document :=
  ⟨[.operation ⟨.mutation, [], [.field "a" [] none]⟩,
    .operation ⟨.query, [], [.field "b" [] none]⟩]⟩

/-- A document with two query operations and no other violation. -/
def docW5 : Document :=
  ⟨[.operation ⟨.query, [], [.field "a" [] none]⟩,
    .operation ⟨.query, [], [.field "b" [] none]⟩]⟩

/-- The operation of `query { ... on T { ... on U { g } } }`. -/
def opDbl : OperationDefinition :=
  ⟨.query, [],
    [.inlineFragment (some "T")
      [.inlineFragment (some "U") [.field "g" [] none]]]⟩

/-- The document `query { ... on T { ... on U { g } } }`: a field nested in
two inline fragments at the operation root, with no intervening field. -/
def docDbl : Document := ⟨[.operation opDbl]⟩

/-- The field node for `g`. -/
def gField : Field := ⟨"g", [], none⟩

/-- The ancestor chain the traversal hands to the visitor at `g`. -/
def ancDbl : List Anc :=
  [.document docDbl, .definitions docDbl.definitions,
    .operationDefinition opDbl,
    .selectionSet opDbl.selectionSet,
    .selections opDbl.selectionSet,
    .inlineFragment (some "T")
      [.inlineFragment (some "U") [.field "g" [] none]],
    .selectionSet [.inlineFragment (some "U") [.field "g" [] none]],
    .selections [.inlineFragment (some "U") [.field "g" [] none]],
    .inlineFragment (some "U") [.field "g" [] none],
    .selectionSet [.field "g" [] none]]

/-- The field node for `inner`, carrying `preview: false`. -/
def innerF : Field := ⟨"inner", [⟨"preview", .boolV false⟩], none⟩

/-- The field node for `outer`. -/
def outerF : Field :=
  ⟨"outer", [], some [.field "inner" [⟨"preview", .boolV false⟩] none]⟩

/-- The operation of `query { outer { inner(preview: false) } }`. -/
def opN : OperationDefinition :=
  ⟨.query, [],
    [.field "outer" [] (some [.field "inner" [⟨"preview", .boolV false⟩] none])]⟩

/-- The document `query { outer { inner(preview: false) } }`. -/
def docN : Document := ⟨[.operation opN]⟩

/-- The ancestor chain the traversal hands to the visitor at `inner`. -/
def ancInner : List Anc :=
  [.document docN, .definitions docN.definitions,
    .operationDefinition opN, .selectionSet opN.selectionSet,
    .selections opN.selectionSet, .field outerF,
    .selectionSet [.field "inner" [⟨"preview", .boolV false⟩] none]]

/-- The argument `preview: null`. -/
def aNull : Argument := ⟨"preview", .nullV⟩

/-- A field carrying the single argument `preview: null`. -/
def fNull : Field := ⟨"f", [aNull], none⟩

/-- A field carrying the single argument `preview: false`. -/
def fZ : Field := ⟨"z", [⟨"preview", .boolV false⟩], none⟩

/-- Variables `{ preview: 0 }`: a falsy value outside claim C6's
enumeration. -/
def varsZ : Vars := [("preview", .num 0)]

/-- An object literal with a duplicated field name. -/
def dupFields : List (String × ValueNode) :=
  [("a", .boolV true), ("a", .boolV false)]

/-- A concrete reversed chain: `myType` directly at the root of the
scenario document's operation. -/
def r0Chain : List Anc :=
  [.selectionSet opScen.selectionSet, .operationDefinition opScen,
    .definitions docScen.definitions, .document docScen]

/-- A plain field node with no arguments. -/
def fPlain : Field := ⟨"f", [], none⟩

/-! ### Reflexivity of the structural equalities -/

mutual

theorem beqValueNode_refl : (v : ValueNode) → beqValueNode v v = true
  | .nullV => rfl
  | .intV _ => by simp [beqValueNode]
  | .floatV _ => by simp [beqValueNode]
  | .stringV _ => by simp [beqValueNode]
  | .boolV _ => by simp [beqValueNode]
  | .enumV _ => by simp [beqValueNode]
  | .listV l => by simpa only [beqValueNode] using beqValueList_refl l
  | .objectV fs => by simpa only [beqValueNode] using beqObjFields_refl fs
  | .variableV _ => by simp [beqValueNode]

theorem beqValueList_refl : (l : List ValueNode) → beqValueList l l = true
  | [] => rfl
  | v :: rest => by
      simp only [beqValueList, Bool.and_eq_true]
      exact ⟨beqValueNode_refl v, beqValueList_refl rest⟩

theorem beqObjFields_refl :
    (l : List (String × ValueNode)) → beqObjFields l l = true
  | [] => rfl
  | (n, v) :: rest => by
      simp only [beqObjFields, Bool.and_eq_true]
      exact ⟨⟨by simp, beqValueNode_refl v⟩, beqObjFields_refl rest⟩

end

theorem beqArgument_refl (a : Argument) : beqArgument a a = true := by
  simp only [beqArgument, Bool.and_eq_true]
  exact ⟨by simp, beqValueNode_refl a.value⟩

mutual

theorem beqSelection_refl : (s : Selection) → beqSelection s s = true
  | .field n a c => by
      simp only [beqSelection, Bool.and_eq_true]
      exact ⟨⟨by simp, beqArgList_refl a⟩, beqOptSels_refl c⟩
  | .fragmentSpread n => by simp [beqSelection]
  | .inlineFragment t c => by
      simp only [beqSelection, Bool.and_eq_true]
      exact ⟨by simp, beqSelList_refl c⟩

theorem beqArgList_refl : (l : List Argument) → beqArgList l l = true
  | [] => rfl
  | a :: as => by
      simp only [beqArgList, Bool.and_eq_true]
      exact ⟨beqArgument_refl a, beqArgList_refl as⟩

theorem beqSelList_refl : (l : List Selection) → beqSelList l l = true
  | [] => rfl
  | s :: rest => by
      simp only [beqSelList, Bool.and_eq_true]
      exact ⟨beqSelection_refl s, beqSelList_refl rest⟩

theorem beqOptSels_refl :
    (c : Option (List Selection)) → beqOptSels c c = true
  | none => rfl
  | some l => beqSelList_refl l

end

theorem beqFragmentDefinition_refl (f : FragmentDefinition) :
    (f == f) = true := by
  show beqFragmentDefinition f f = true
  simp only [beqFragmentDefinition, Bool.and_eq_true]
  exact ⟨⟨by simp, by simp⟩, beqSelList_refl f.selectionSet⟩

/-! ### Counting spread sites -/

theorem countP_varDefEvents (t : String) (vds : List VariableDefinition) :
    (vds.map VEvent.varDef).countP (isSpreadNamed t) = 0 := by
  induction vds with
  | nil => rfl
  | cons v rest ih => simp [List.countP_cons, isSpreadNamed, ih]

mutual

theorem visitSelections_spreadCount (t : String) :
    (pre : List Anc) → (whole sels : List Selection) →
      (visitSelections pre whole sels).countP (isSpreadNamed t) =
        countSpreadsSelList t sels
  | _, _, [] => by simp [visitSelections, countSpreadsSelList]
  | pre, whole, s :: rest => by
      simp only [visitSelections, List.countP_append, countSpreadsSelList]
      rw [visitOneSel_spreadCount t pre whole s,
        visitSelections_spreadCount t pre whole rest]

theorem visitOneSel_spreadCount (t : String) :
    (pre : List Anc) → (whole : List Selection) → (s : Selection) →
      (visitOneSel pre whole s).countP (isSpreadNamed t) =
        countSpreadsSel t s
  | pre, whole, .field n args none => by
      simp [visitOneSel, countSpreadsSel, List.countP_cons, isSpreadNamed]
  | pre, whole, .field n args (some c) => by
      simp only [visitOneSel, List.countP_cons, countSpreadsSel]
      rw [visitSelections_spreadCount t _ c c]
      simp [isSpreadNamed]
  | pre, whole, .fragmentSpread n => by
      simp [visitOneSel, countSpreadsSel, List.countP_cons, isSpreadNamed]
  | pre, whole, .inlineFragment tc isels => by
      simp only [visitOneSel, countSpreadsSel]
      exact visitSelections_spreadCount t _ isels isels

end

theorem visitDefs_spreadCount (t : String) (doc : Document)
    (whole : List Definition) :
    ∀ defs : List Definition,
      (visitDefs doc whole defs).countP (isSpreadNamed t) =
        (defs.map fun d =>
          match d with
          | .operation o => countSpreadsSelList t o.selectionSet
          | .fragment f => countSpreadsSelList t f.selectionSet
          | .typeDef _ => 0).sum := by
  intro defs
  induction defs with
  | nil => rfl
  | cons d rest ih =>
    cases d with
    | operation o =>
      simp only [visitDefs, List.countP_cons, List.countP_append,
        List.map_cons, List.sum_cons, countP_varDefEvents,
        visitSelections_spreadCount, ih]
      simp [isSpreadNamed]
    | fragment f =>
      simp only [visitDefs, List.countP_append,
        visitSelections_spreadCount, ih, List.map_cons, List.sum_cons]
    | typeDef n =>
      simp only [visitDefs, ih, List.map_cons, List.sum_cons]
      omega

theorem collect_filter_length (t : String) :
    ∀ evs : List VEvent,
      ((evs.filterMap fun e =>
        match e with
        | .spread n anc => some (⟨n, anc⟩ : Usage)
        | _ => none).filter fun u => u.name == t).length =
        evs.countP (isSpreadNamed t) := by
  intro evs
  induction evs with
  | nil => rfl
  | cons e rest ih =>
    cases e with
    | op o => simpa [List.filterMap_cons, List.countP_cons, isSpreadNamed]
        using ih
    | varDef v => simpa [List.filterMap_cons, List.countP_cons,
        isSpreadNamed] using ih
    | field f anc => simpa [List.filterMap_cons, List.countP_cons,
        isSpreadNamed] using ih
    | spread n anc =>
      by_cases h : n = t
      · subst h
        simp [List.filterMap_cons, List.filter_cons, List.countP_cons,
          isSpreadNamed, ih]
      · have hb : (n == t) = false := by simp [h]
        simp [List.filterMap_cons, List.filter_cons, List.countP_cons,
          isSpreadNamed, hb, ih]

theorem getFragmentUsages_length (doc : Document)
    (frag : FragmentDefinition) :
    (getFragmentUsages doc frag).length = countFragSpreads doc frag.name := by
  show ((collectSpreads doc).filter fun u => u.name == frag.name).length = _
  rw [collectSpreads, collect_filter_length, visitDocument,
    visitDefs_spreadCount]
  rfl

/-- Claim C7: `getFragmentUsages` is memoised per fragment — the second
call on a fresh helper returns exactly the sequence cached by the first
call and leaves the cache unchanged — and the sequence's length equals the
number of spread sites of the fragment's name anywhere in the document,
including inside other fragment definitions. -/
theorem c7_theorem (doc : Document) (frag : FragmentDefinition) :
    (getFragmentUsagesC ((getFragmentUsagesC (Helper.init doc) frag).2)
        frag).1 =
      (getFragmentUsagesC (Helper.init doc) frag).1 ∧
    (getFragmentUsagesC ((getFragmentUsagesC (Helper.init doc) frag).2)
        frag).2 =
      (getFragmentUsagesC (Helper.init doc) frag).2 ∧
    (getFragmentUsagesC (Helper.init doc) frag).1.length =
      countFragSpreads doc frag.name := by
  have h1 : getFragmentUsagesC (Helper.init doc) frag =
      (getFragmentUsages doc frag,
        ⟨doc, [(frag, getFragmentUsages doc frag)]⟩) := by
    simp [getFragmentUsagesC, Helper.init]
  have h2 : getFragmentUsagesC
      (⟨doc, [(frag, getFragmentUsages doc frag)]⟩ : Helper) frag =
      (getFragmentUsages doc frag,
        ⟨doc, [(frag, getFragmentUsages doc frag)]⟩) := by
    simp [getFragmentUsagesC, List.find?, beqFragmentDefinition_refl frag]
  rw [h1]
  exact ⟨by rw [h2], by rw [h2], getFragmentUsages_length doc frag⟩

/-! ### Concrete claim theorems -/

/-- Claim C3 (code bug): on `docC3` the fragment-usage graph is acyclic —
`F` is used only inside `G`, and `G` only under a nested field — yet
resolving whether `F` is used in the root raises a `FragmentCycleError`,
because the second usage of `F` re-enters `G` while `G` is still in the
never-popped visited list.  The claim (and the specification's
current-path algorithm) says acyclic documents never raise. -/
theorem c3_spurious_cycle :
    fragUsageAcyclic docC3 = true ∧
    isFragmentUsedInRoot docC3 fragF =
      .error (.fragmentCycle
        "A fragment cycle has been detected: F->GG") :=
  ⟨by decide, rfl⟩

/-- Claim C4 (code bug): on the genuine cycle `A -> B -> A` of `docC4` the
raised message is `"A fragment cycle has been detected: A->BA"` — the
repeated fragment's name is appended without the `->` separator — not the
`"...: A->B->A"` chain the claim (and the specification's example)
states. -/
theorem c4_cycle_message :
    isFragmentUsedInRoot docC4 fragA =
      .error (.fragmentCycle
        "A fragment cycle has been detected: A->BA") ∧
    errMessage (.fragmentCycle
        "A fragment cycle has been detected: A->BA") =
      "A fragment cycle has been detected: A->BA" ∧
    "A fragment cycle has been detected: A->BA" ≠
      "A fragment cycle has been detected: A->B->A" :=
  ⟨rfl, rfl, by decide⟩

/-- Claim C1, counterexample: in `query { outer { inner(preview: false) } }`
with variables `{ preview: true }`, the nested field `inner` satisfies the
claim's premise — the preview variable is truthy and the field's only
`preview` argument resolves to `false`, which is not truthy — and `inner`
is not at root; yet `validateField` raises a `PreviewMismatchError`,
contradicting the claim's "non-root (nested) fields raise nothing". -/
theorem c1_counterexample :
    visitDocument docN =
      [VEvent.op opN,
        VEvent.field outerF
          [Anc.document docN, Anc.definitions docN.definitions,
            Anc.operationDefinition opN, Anc.selectionSet opN.selectionSet],
        VEvent.field innerF ancInner] ∧
    truthy (jsGet varsPT "preview") = true ∧
    resolveArgumentValue ⟨"preview", .boolV false⟩ varsPT = .bool false ∧
    truthy (.bool false) = false ∧
    isInRoot (.field innerF) ancInner = .ok .notRoot ∧
    validateField docN innerF ancInner varsPT =
      .error (.previewMismatch "inner" (.bool true)) :=
  ⟨rfl, rfl, rfl, rfl, rfl, rfl⟩

/-- Claim C2, counterexample: in `query { ... on T { ... on U { g } } }`
the traversal hands the visitor at `g` the chain `ancDbl`; the specified
rule classifies `g` as at root (only inline fragments and selection layers
separate it from the operation), but `isInRoot` returns
`{ isRoot: false }` — its hard-coded offsets handle only one inline
fragment level. -/
theorem c2_counterexample :
    visitDocument docDbl = [VEvent.op opDbl, VEvent.field gField ancDbl] ∧
    specAtRoot ancDbl = true ∧
    isInRoot (.field gField) ancDbl = .ok .notRoot :=
  ⟨rfl, rfl, rfl⟩

/-- Claim C5, counterexample: `docCE5` has two operations (count ≠ 1), but
its first operation is a mutation, so the fail-fast traversal raises
`OperationTypeError` — not the `OperationCountError` the claim promises
"regardless of the document's other content". -/
theorem c5_counterexample :
    countOpsDoc docCE5 = 2 ∧
    validateDocument docCE5 varsPF = .error .opType ∧
    validateDocument docCE5 varsPF ≠ .error .opCount := by
  refine ⟨rfl, rfl, ?_⟩
  intro h
  rw [show validateDocument docCE5 varsPF = .error .opType from rfl] at h
  injection h with h2
  exact Err.noConfusion h2

/-- Claim C6, counterexample: with variables `{ preview: 0 }` and a field
argument `preview: false`, the claim's coercion table (null, false,
undefined, absent ⇒ false; any other value ⇒ true) predicts a mismatch
(`0` being "any other value"), but the code's JavaScript falsy comparison
accepts the field: `0` is falsy. -/
theorem c6_counterexample :
    claimedCoercion (jsGet varsZ "preview") = true ∧
    claimedCoercion (resolveArgumentValue ⟨"preview", .boolV false⟩ varsZ) =
      false ∧
    validateField d0 fZ [] varsZ = .ok () := ⟨rfl, rfl, rfl⟩

/-- Claim C8, counterexample: on ancestor chains too short for the
hard-coded offsets, `isInRoot` does not return `{ isRoot: false }` — the
positional access yields `undefined` and the property access on it throws
a `TypeError` (a field with an empty chain reads `undefined.kind`; a
spread with a one-entry chain evaluates `"kind" in undefined`). -/
theorem c8_counterexample :
    isInRoot (.field fPlain) [] = .error .typeError ∧
    isInRoot (.fragmentSpread "X") [Anc.selectionSet []] =
      .error .typeError := ⟨rfl, rfl⟩

/-- Claim C9, counterexample: the object literal `{ a: true, a: false }`
resolves to a single-entry mapping — the duplicate key is deduplicated
with the last write winning — not to the two entries passed through as
given that the claim describes. -/
theorem c9_counterexample :
    resolveValueNode [] (.objectV dupFields) = .obj [("a", .bool false)] ∧
    claimPassThrough [] dupFields =
      [("a", .bool true), ("a", .bool false)] ∧
    resolveValueNode [] (.objectV dupFields) ≠
      .obj (claimPassThrough [] dupFields) := by
  refine ⟨rfl, rfl, ?_⟩
  intro h
  rw [show resolveValueNode [] (.objectV dupFields) =
      .obj [("a", .bool false)] from rfl,
    show claimPassThrough [] dupFields =
      [("a", .bool true), ("a", .bool false)] from rfl] at h
  simp at h

/-! ### The preview-argument scan -/

theorem bne_not_not (a b : Bool) : ((!a) != (!b)) = (a != b) := by
  cases a <;> cases b <;> rfl

theorem argsLoop_no_preview (fn : String) (pv : JsValue) (vars : Vars) :
    ∀ (args : List Argument) (acc : JsValue),
      (∀ a ∈ args, a.name ≠ "preview") →
      argsLoop fn pv vars args acc = .ok acc := by
  intro args
  induction args with
  | nil => intro acc _; rfl
  | cons x rest ih =>
    intro acc h
    have hx : (x.name == "preview") = false := by
      simp [h x (List.mem_cons_self x rest)]
    simp only [argsLoop, hx, Bool.false_eq_true, if_false]
    exact ih acc fun y hy => h y (List.mem_cons_of_mem x hy)

theorem argsLoop_single (fn : String) (pv : JsValue) (vars : Vars) :
    ∀ (args : List Argument) (a : Argument) (acc : JsValue),
      args.filter (fun x => x.name == "preview") = [a] →
      (resolveArgumentValue a vars = .null ∨
        ∃ b, resolveArgumentValue a vars = .bool b) →
      argsLoop fn pv vars args acc =
        if (!truthy pv) != (!truthy (resolveArgumentValue a vars)) then
          .error (.previewMismatch fn pv)
        else .ok (resolveArgumentValue a vars) := by
  intro args
  induction args with
  | nil => intro a acc hf; simp at hf
  | cons x rest ih =>
    intro a acc hf hv
    by_cases hx : x.name = "preview"
    · have hxb : (x.name == "preview") = true := by simp [hx]
      rw [List.filter_cons_of_pos (by simp [hxb])] at hf
      have hxa : x = a := List.head_eq_of_cons_eq hf
      have hrest : rest.filter (fun y => y.name == "preview") = [] :=
        List.tail_eq_of_cons_eq hf
      have hnone : ∀ y ∈ rest, y.name ≠ "preview" := by
        intro y hy
        have := List.filter_eq_nil_iff.mp hrest y hy
        simpa using this
      subst hxa
      rcases hv with hnul | ⟨b, hb⟩
      · simp only [argsLoop, hxb, if_true, resolveArgumentValue] at *
        rw [show resolveValueNode vars x.value = JsValue.null from hnul]
        by_cases hc : ((!truthy pv) != (!truthy JsValue.null)) = true
        · simp only [hc, if_true]
        · have hc' : ((!truthy pv) != (!truthy JsValue.null)) = false :=
            Bool.eq_false_iff.mpr hc
          simp only [hc', Bool.false_eq_true, if_false]
          exact argsLoop_no_preview fn pv vars rest JsValue.null hnone
      · simp only [argsLoop, hxb, if_true, resolveArgumentValue] at *
        rw [show resolveValueNode vars x.value = JsValue.bool b from hb]
        by_cases hc : ((!truthy pv) != (!truthy (JsValue.bool b))) = true
        · simp only [hc, if_true]
        · have hc' : ((!truthy pv) != (!truthy (JsValue.bool b))) = false :=
            Bool.eq_false_iff.mpr hc
          simp only [hc', Bool.false_eq_true, if_false]
          exact argsLoop_no_preview fn pv vars rest (JsValue.bool b) hnone
    · have hxb : (x.name == "preview") = false := by simp [hx]
      rw [List.filter_cons_of_neg (by simp [hxb])] at hf
      simp only [argsLoop, hxb, Bool.false_eq_true, if_false]
      exact ih a acc hf hv

theorem validateField_single_preview (doc : Document) (f : Field)
    (anc : List Anc) (vars : Vars) (a : Argument)
    (hf : f.arguments.filter (fun x => x.name == "preview") = [a])
    (hv : resolveArgumentValue a vars = .null ∨
      ∃ b, resolveArgumentValue a vars = .bool b) :
    validateField doc f anc vars =
      if truthy (resolveArgumentValue a vars) !=
          truthy (jsGet vars "preview") then
        .error (.previewMismatch f.name (jsGet vars "preview"))
      else .ok () := by
  have hl := argsLoop_single f.name (jsGet vars "preview") vars f.arguments
    a .undefined hf hv
  rw [bne_not_not] at hl
  by_cases hc : truthy (jsGet vars "preview") =
      truthy (resolveArgumentValue a vars)
  · have h1 : (truthy (jsGet vars "preview") !=
        truthy (resolveArgumentValue a vars)) = false := by simp [hc]
    simp only [h1, Bool.false_eq_true, if_false] at hl
    have h2 : (truthy (resolveArgumentValue a vars) !=
        truthy (jsGet vars "preview")) = false := by simp [hc]
    have h3 : (truthy (jsGet vars "preview") &&
        !truthy (resolveArgumentValue a vars)) = false := by
      rw [← hc]; exact Bool.and_not_self _
    simp only [validateField, hl, h3, h2, Bool.false_eq_true, if_false]
  · have h1 : (truthy (jsGet vars "preview") !=
        truthy (resolveArgumentValue a vars)) = true := bne_iff_ne.mpr hc
    simp only [h1, if_true] at hl
    have h2 : (truthy (resolveArgumentValue a vars) !=
        truthy (jsGet vars "preview")) = true :=
      bne_iff_ne.mpr fun h => hc h.symm
    simp only [validateField, hl, h2, if_true]

/-- Claim C6, amended: for a field whose single `preview` argument resolves
to null or a boolean, `validateField` raises `PreviewMismatchError` if and
only if the JavaScript falsy-coercion of the resolved argument value
differs from that of the top-level preview variable (so `preview: null`
is accepted when the variable is falsy); when the coercions agree the
field validates cleanly.  (The claim's coercion table — "any other value
to true" — is amended to JavaScript truthiness, under which `0`, `""` and
`NaN` also coerce to false.) -/
theorem c6_amended (doc : Document) (f : Field) (anc : List Anc)
    (vars : Vars) (a : Argument)
    (hf : f.arguments.filter (fun x => x.name == "preview") = [a])
    (hv : resolveArgumentValue a vars = .null ∨
      ∃ b, resolveArgumentValue a vars = .bool b) :
    (validateField doc f anc vars =
        .error (.previewMismatch f.name (jsGet vars "preview")) ↔
      truthy (resolveArgumentValue a vars) ≠
        truthy (jsGet vars "preview")) ∧
    (truthy (resolveArgumentValue a vars) = truthy (jsGet vars "preview") →
      validateField doc f anc vars = .ok ()) := by
  have he := validateField_single_preview doc f anc vars a hf hv
  constructor
  · constructor
    · intro h hc
      rw [he, if_neg (by simp [hc])] at h
      exact Except.noConfusion h
    · intro h
      rw [he, if_pos (bne_iff_ne.mpr h)]
  · intro h
    rw [he, if_neg (by simp [h])]

/-- Claim C6, witness: the field `f(preview: null)` with variables
`{ preview: false }` — both coerce to false — validates cleanly, by the
amended theorem applied at this input. -/
theorem c6_amended_witness :
    fNull.arguments.filter (fun x => x.name == "preview") = [aNull] ∧
    resolveArgumentValue aNull varsPF = .null ∧
    truthy (resolveArgumentValue aNull varsPF) =
      truthy (jsGet varsPF "preview") ∧
    validateField d0 fNull [] varsPF = .ok () :=
  ⟨rfl, rfl, rfl,
    (c6_amended d0 fNull [] varsPF aNull rfl (Or.inl rfl)).2 rfl⟩

/-- Claim C10: when the variables mapping resolves `preview` to
`undefined` (the key omitted, or explicitly mapped to `undefined`),
`validateField` behaves as for `preview: false`: a field with no `preview`
argument validates cleanly (the root check never fires, `undefined` being
falsy), a single `preview` argument resolving to `null` or `false`
validates cleanly, and one resolving to `true` raises
`PreviewMismatchError`. -/
theorem c10_theorem (doc : Document) (f : Field) (anc : List Anc)
    (vars : Vars) (h : jsGet vars "preview" = .undefined) :
    ((∀ a ∈ f.arguments, a.name ≠ "preview") →
      validateField doc f anc vars = .ok ()) ∧
    (∀ a : Argument,
      f.arguments.filter (fun x => x.name == "preview") = [a] →
      (resolveArgumentValue a vars = .null ∨
        resolveArgumentValue a vars = .bool false) →
      validateField doc f anc vars = .ok ()) ∧
    (∀ a : Argument,
      f.arguments.filter (fun x => x.name == "preview") = [a] →
      resolveArgumentValue a vars = .bool true →
      validateField doc f anc vars =
        .error (.previewMismatch f.name .undefined)) := by
  refine ⟨?_, ?_, ?_⟩
  · intro hargs
    have hl := argsLoop_no_preview f.name (jsGet vars "preview") vars
      f.arguments .undefined hargs
    rw [h] at hl
    simp only [validateField, h, hl, truthy, Bool.false_and,
      Bool.false_eq_true, if_false]
  · intro a hf hv
    have hv' : resolveArgumentValue a vars = .null ∨
        ∃ b, resolveArgumentValue a vars = .bool b := by
      rcases hv with h1 | h1
      · exact Or.inl h1
      · exact Or.inr ⟨false, h1⟩
    have he := validateField_single_preview doc f anc vars a hf hv'
    have ht : truthy (resolveArgumentValue a vars) = false := by
      rcases hv with h1 | h1 <;> rw [h1] <;> rfl
    rw [he, if_neg (by rw [ht, h]; decide)]
  · intro a hf hv
    have he := validateField_single_preview doc f anc vars a hf
      (Or.inr ⟨true, hv⟩)
    rw [he, if_pos (by rw [hv, h]; decide), h]

/-- Claim C10, witness: with an empty variables mapping (no `preview` key)
a plain field validates cleanly, by the theorem applied at this input. -/
theorem c10_witness :
    jsGet [] "preview" = .undefined ∧
    validateField d0 fPlain [] [] = .ok () :=
  ⟨rfl, (c10_theorem d0 fPlain [] [] rfl).1 (by simp [fPlain])⟩

/-! ### Error shapes of root classification and fragment resolution -/

theorem isInRoot_error_eq (node : SelNode) (anc : List Anc) (e : Err)
    (h : isInRoot node anc = .error e) : e = .typeError := by
  cases node <;> unfold isInRoot at h <;> (repeat' split at h) <;>
    first
      | exact Except.noConfusion h
      | (injection h with h'; exact h'.symm)

theorem usagesLoop_no_rpm
    (rec : FragmentDefinition → List FragmentDefinition →
      Except Err (Bool × List FragmentDefinition))
    (hrec : ∀ g v s, rec g v ≠ .error (.rootPreviewMissing s)) :
    ∀ (us : List Usage) (visited : List FragmentDefinition) (s : String),
      usagesLoop rec us visited ≠ .error (.rootPreviewMissing s) := by
  intro us
  induction us with
  | nil => intro v s h; exact Except.noConfusion h
  | cons u rest ih =>
    intro v s h
    unfold usagesLoop at h
    cases hr : isInRoot (.fragmentSpread u.name) u.ancestors with
    | error e =>
      rw [hr] at h
      try dsimp only at h
      injection h with h'
      have he := isInRoot_error_eq _ _ _ hr
      subst he
      exact Err.noConfusion h'
    | ok r =>
      rw [hr] at h
      cases r with
      | notRoot =>
        try dsimp only at h
        exact ih v s h
      | root c =>
        cases c with
        | operationDefinition o => exact Except.noConfusion h
        | fragmentDefinition g =>
          try dsimp only at h
          cases hg : rec g v with
          | error e =>
            rw [hg] at h
            try dsimp only at h
            injection h with h'
            subst h'
            exact hrec g v s hg
          | ok p =>
            cases p with
            | mk b v' =>
              cases b with
              | true =>
                rw [hg] at h
                exact Except.noConfusion h
              | false =>
                rw [hg] at h
                try dsimp only at h
                exact ih v' s h
        | document d => injection h with h'; exact Err.noConfusion h'
        | definitions l => injection h with h'; exact Err.noConfusion h'
        | selectionSet s' => injection h with h'; exact Err.noConfusion h'
        | selections l => injection h with h'; exact Err.noConfusion h'
        | field f => injection h with h'; exact Err.noConfusion h'
        | inlineFragment tc ls =>
          injection h with h'
          exact Err.noConfusion h'

theorem fragRootAux_no_rpm (doc : Document) :
    ∀ (fuel : Nat) (frag : FragmentDefinition)
      (visited : List FragmentDefinition) (s : String),
      fragRootAux doc fuel frag visited ≠
        .error (.rootPreviewMissing s) := by
  intro fuel
  induction fuel with
  | zero =>
    intro frag v s h
    injection h with h'
    exact Err.noConfusion h'
  | succ k ih =>
    intro frag v s h
    unfold fragRootAux at h
    by_cases hc : v.contains frag = true
    · rw [if_pos hc] at h
      injection h with h'
      exact Err.noConfusion h'
    · rw [if_neg hc] at h
      exact usagesLoop_no_rpm (fragRootAux doc k)
        (fun g v' s' => ih g v' s') _ _ _ h

theorem isFragmentUsedInRoot_no_rpm (doc : Document)
    (g : FragmentDefinition) (s : String) :
    isFragmentUsedInRoot doc g ≠ .error (.rootPreviewMissing s) := by
  intro h
  unfold isFragmentUsedInRoot at h
  cases hg : fragRootAux doc (doc.definitions.length + 2) g [] with
  | error e =>
    rw [hg] at h
    dsimp only at h
    injection h with h'
    subst h'
    exact fragRootAux_no_rpm doc _ g [] s hg
  | ok p =>
    rw [hg] at h
    dsimp only at h
    exact Except.noConfusion h

/-- Claim C1, amended: for a field carrying no `preview` argument, visited
with the preview variable truthy, `validateField` raises
`RootPreviewMissingError` naming the field exactly when the field is
classified at root of an operation, or at root of a fragment definition
whose resolution confirms it used at an operation's root; a field
classified as nested raises nothing.  (The claim's premise "no explicit
truthy `preview` argument" is narrowed to "no `preview` argument": a field
with a falsy `preview` argument raises `PreviewMismatchError` instead when
the variable is truthy, as the counterexample shows.) -/
theorem c1_amended (doc : Document) (f : Field) (anc : List Anc)
    (vars : Vars)
    (hargs : ∀ a ∈ f.arguments, a.name ≠ "preview")
    (hvar : truthy (jsGet vars "preview") = true) :
    (validateField doc f anc vars = .error (.rootPreviewMissing f.name) ↔
      ((∃ o, isInRoot (.field f) anc =
          .ok (.root (.operationDefinition o))) ∨
       (∃ g, isInRoot (.field f) anc =
          .ok (.root (.fragmentDefinition g)) ∧
          isFragmentUsedInRoot doc g = .ok true))) ∧
    (isInRoot (.field f) anc = .ok .notRoot →
      validateField doc f anc vars = .ok ()) := by
  have hl := argsLoop_no_preview f.name (jsGet vars "preview") vars
    f.arguments .undefined hargs
  have hcond : (truthy (jsGet vars "preview") &&
      !truthy JsValue.undefined) = true := by rw [hvar]; rfl
  have hred : validateField doc f anc vars =
      (match isInRoot (.field f) anc with
       | .error e => .error e
       | .ok .notRoot => .ok ()
       | .ok (.root container) =>
         match container with
         | .operationDefinition _ => .error (.rootPreviewMissing f.name)
         | .fragmentDefinition g =>
           match isFragmentUsedInRoot doc g with
           | .error e => .error e
           | .ok true => .error (.rootPreviewMissing f.name)
           | .ok false => .ok ()
         | _ => .error .typeError) := by
    simp only [validateField, hl]
    rw [if_pos hcond]
  rw [hred]
  cases hR : isInRoot (.field f) anc with
  | error e =>
    have he := isInRoot_error_eq _ _ _ hR
    subst he
    constructor
    · constructor
      · intro h
        injection h with h'
        exact Err.noConfusion h'
      · rintro (⟨o, ho⟩ | ⟨g, hg, _⟩)
        · exact Except.noConfusion ho
        · exact Except.noConfusion hg
    · intro hnr
      exact Except.noConfusion hnr
  | ok r =>
    cases r with
    | notRoot =>
      constructor
      · constructor
        · intro h
          exact Except.noConfusion h
        · rintro (⟨o, ho⟩ | ⟨g, hg, _⟩)
          · injection ho with h'
            exact RootResult.noConfusion h'
          · injection hg with h'
            exact RootResult.noConfusion h'
      · intro _
        rfl
    | root c =>
      cases c with
      | operationDefinition o =>
        refine ⟨⟨fun _ => Or.inl ⟨o, rfl⟩, fun _ => rfl⟩, ?_⟩
        intro hnr
        injection hnr with h'
        exact RootResult.noConfusion h'
      | fragmentDefinition g =>
        dsimp only
        cases hg : isFragmentUsedInRoot doc g with
        | error e =>
          constructor
          · constructor
            · intro h
              injection h with h'
              subst h'
              exact absurd hg (isFragmentUsedInRoot_no_rpm doc g f.name)
            · rintro (⟨o, ho⟩ | ⟨g', hg', ht⟩)
              · injection ho with h'
                injection h' with h''
                exact Anc.noConfusion h''
              · injection hg' with h'
                injection h' with h''
                injection h'' with h3
                subst h3
                rw [hg] at ht
                exact Except.noConfusion ht
          · intro hnr
            injection hnr with h'
            exact RootResult.noConfusion h'
        | ok b =>
          cases b with
          | true =>
            refine ⟨⟨fun _ => Or.inr ⟨g, rfl, hg⟩, fun _ => rfl⟩, ?_⟩
            intro hnr
            injection hnr with h'
            exact RootResult.noConfusion h'
          | false =>
            constructor
            · constructor
              · intro h
                exact Except.noConfusion h
              · rintro (⟨o, ho⟩ | ⟨g', hg', ht⟩)
                · injection ho with h'
                  injection h' with h''
                  exact Anc.noConfusion h''
                · injection hg' with h'
                  injection h' with h''
                  injection h'' with h3
                  subst h3
                  rw [hg] at ht
                  injection ht with h4
                  exact Bool.noConfusion h4
            · intro hnr
              injection hnr with h'
              exact RootResult.noConfusion h'
      | document d =>
        constructor
        · constructor
          · intro h
            injection h with h'
            exact Err.noConfusion h'
          · rintro (⟨o, ho⟩ | ⟨g', hg', _⟩)
            · injection ho with h'
              injection h' with h''
              exact Anc.noConfusion h''
            · injection hg' with h'
              injection h' with h''
              exact Anc.noConfusion h''
        · intro hnr
          injection hnr with h'
          exact RootResult.noConfusion h'
      | definitions l =>
        constructor
        · constructor
          · intro h
            injection h with h'
            exact Err.noConfusion h'
          · rintro (⟨o, ho⟩ | ⟨g', hg', _⟩)
            · injection ho with h'
              injection h' with h''
              exact Anc.noConfusion h''
            · injection hg' with h'
              injection h' with h''
              exact Anc.noConfusion h''
        · intro hnr
          injection hnr with h'
          exact RootResult.noConfusion h'
      | selectionSet sels =>
        constructor
        · constructor
          · intro h
            injection h with h'
            exact Err.noConfusion h'
          · rintro (⟨o, ho⟩ | ⟨g', hg', _⟩)
            · injection ho with h'
              injection h' with h''
              exact Anc.noConfusion h''
            · injection hg' with h'
              injection h' with h''
              exact Anc.noConfusion h''
        · intro hnr
          injection hnr with h'
          exact RootResult.noConfusion h'
      | selections l =>
        constructor
        · constructor
          · intro h
            injection h with h'
            exact Err.noConfusion h'
          · rintro (⟨o, ho⟩ | ⟨g', hg', _⟩)
            · injection ho with h'
              injection h' with h''
              exact Anc.noConfusion h''
            · injection hg' with h'
              injection h' with h''
              exact Anc.noConfusion h''
        · intro hnr
          injection hnr with h'
          exact RootResult.noConfusion h'
      | field f' =>
        constructor
        · constructor
          · intro h
            injection h with h'
            exact Err.noConfusion h'
          · rintro (⟨o, ho⟩ | ⟨g', hg', _⟩)
            · injection ho with h'
              injection h' with h''
              exact Anc.noConfusion h''
            · injection hg' with h'
              injection h' with h''
              exact Anc.noConfusion h''
        · intro hnr
          injection hnr with h'
          exact RootResult.noConfusion h'
      | inlineFragment tc ls =>
        constructor
        · constructor
          · intro h
            injection h with h'
            exact Err.noConfusion h'
          · rintro (⟨o, ho⟩ | ⟨g', hg', _⟩)
            · injection ho with h'
              injection h' with h''
              exact Anc.noConfusion h''
            · injection hg' with h'
              injection h' with h''
              exact Anc.noConfusion h''
        · intro hnr
          injection hnr with h'
          exact RootResult.noConfusion h'

/-- Claim C1, witness: on `query { myType { myField } }` with variables
`{ preview: true }` the amended theorem applies to the root field `myType`
(no `preview` argument, truthy variable, classified at the operation root)
and yields `RootPreviewMissingError` naming `myType`; `validateDocument`
on the same input raises exactly that error. -/
theorem c1_amended_witness :
    truthy (jsGet varsPT "preview") = true ∧
    validateField docScen fMyTypeField ancMyType varsPT =
      .error (.rootPreviewMissing "myType") ∧
    validateDocument docScen varsPT =
      .error (.rootPreviewMissing "myType") :=
  ⟨rfl,
    (c1_amended docScen fMyTypeField ancMyType varsPT
        (by intro a ha; simp [fMyTypeField] at ha) rfl).1.mpr
      (Or.inl ⟨opScen, rfl⟩),
    rfl⟩

/-! ### Operation counting along the traversal -/

theorem runEvents_ok_count (doc : Document) (vars : Vars) :
    ∀ (evs : List VEvent) (m n : Nat),
      runEvents doc vars evs m = .ok n →
      n = m + evs.countP isOpEvent := by
  intro evs
  induction evs with
  | nil =>
    intro m n h
    injection h with h'
    simp [h'.symm]
  | cons e rest ih =>
    intro m n h
    cases e with
    | op o =>
      unfold runEvents at h
      cases ho : validateOperation o with
      | error e' => rw [ho] at h; exact Except.noConfusion h
      | ok u =>
        rw [ho] at h
        dsimp only at h
        have := ih (m + 1) n h
        simp [this, List.countP_cons, isOpEvent]
        omega
    | varDef v =>
      unfold runEvents at h
      cases ho : validateVariableDefinition v with
      | error e' => rw [ho] at h; exact Except.noConfusion h
      | ok u =>
        rw [ho] at h
        dsimp only at h
        have := ih m n h
        simp [this, List.countP_cons, isOpEvent]
    | field f anc =>
      unfold runEvents at h
      cases ho : validateField doc f anc vars with
      | error e' => rw [ho] at h; exact Except.noConfusion h
      | ok u =>
        rw [ho] at h
        dsimp only at h
        have := ih m n h
        simp [this, List.countP_cons, isOpEvent]
    | spread nm anc =>
      unfold runEvents at h
      have := ih m n h
      simp [this, List.countP_cons, isOpEvent]

mutual

theorem visitSelections_no_ops :
    (pre : List Anc) → (whole sels : List Selection) →
      (visitSelections pre whole sels).countP isOpEvent = 0
  | _, _, [] => by simp [visitSelections]
  | pre, whole, s :: rest => by
      simp only [visitSelections, List.countP_append]
      rw [visitOneSel_no_ops pre whole s,
        visitSelections_no_ops pre whole rest]

theorem visitOneSel_no_ops :
    (pre : List Anc) → (whole : List Selection) → (s : Selection) →
      (visitOneSel pre whole s).countP isOpEvent = 0
  | pre, whole, .field n args none => by
      simp [visitOneSel, List.countP_cons, isOpEvent]
  | pre, whole, .field n args (some c) => by
      simp only [visitOneSel, List.countP_cons]
      rw [visitSelections_no_ops _ c c]
      simp [isOpEvent]
  | pre, whole, .fragmentSpread n => by
      simp [visitOneSel, List.countP_cons, isOpEvent]
  | pre, whole, .inlineFragment tc isels => by
      simp only [visitOneSel]
      exact visitSelections_no_ops _ isels isels

end

theorem countP_varDefEvents_ops (vds : List VariableDefinition) :
    (vds.map VEvent.varDef).countP isOpEvent = 0 := by
  induction vds with
  | nil => rfl
  | cons v rest ih => simp [List.countP_cons, isOpEvent, ih]

theorem visitDefs_op_count (doc : Document) (whole : List Definition) :
    ∀ defs : List Definition,
      (visitDefs doc whole defs).countP isOpEvent =
        defs.countP fun d =>
          match d with
          | .operation _ => true
          | _ => false := by
  intro defs
  induction defs with
  | nil => rfl
  | cons d rest ih =>
    cases d with
    | operation o =>
      simp only [visitDefs, List.countP_cons, List.countP_append,
        countP_varDefEvents_ops, visitSelections_no_ops, ih]
      simp [isOpEvent]
      omega
    | fragment f =>
      simp only [visitDefs, List.countP_append, visitSelections_no_ops, ih,
        List.countP_cons]
      simp
    | typeDef n =>
      simp only [visitDefs, ih, List.countP_cons]
      simp

/-- Claim C5, amended: a document whose operation count is not exactly 1
never validates; and whenever the fail-fast traversal itself finishes
without raising (no operation-type, variable-type or field check fails
first), the error is `OperationCountError` with message "The document must
have exactly 1 operation.".  (The original "regardless of the document's
other content" fails: an earlier per-node check can raise first, as the
counterexample's mutation shows.) -/
theorem c5_amended (doc : Document) (vars : Vars)
    (h : countOpsDoc doc ≠ 1) :
    validateDocument doc vars ≠ .ok () ∧
    (∀ n, runEvents doc vars (visitDocument doc) 0 = .ok n →
      validateDocument doc vars = .error .opCount) ∧
    errMessage .opCount = "The document must have exactly 1 operation." := by
  have hcount : (visitDocument doc).countP isOpEvent = countOpsDoc doc := by
    rw [visitDocument, visitDefs_op_count]
    rfl
  refine ⟨?_, ?_, rfl⟩
  · intro hok
    unfold validateDocument at hok
    cases hr : runEvents doc vars (visitDocument doc) 0 with
    | error e => rw [hr] at hok; exact Except.noConfusion hok
    | ok n =>
      rw [hr] at hok
      dsimp only at hok
      have hn : n = countOpsDoc doc := by
        have := runEvents_ok_count doc vars _ 0 n hr
        simpa [hcount] using this
      rw [if_pos (by rw [hn]; exact h)] at hok
      exact Except.noConfusion hok
  · intro n hr
    unfold validateDocument
    rw [hr]
    dsimp only
    have hn : n = countOpsDoc doc := by
      have := runEvents_ok_count doc vars _ 0 n hr
      simpa [hcount] using this
    rw [if_pos (by rw [hn]; exact h)]

/-- Claim C5, witness: a document with two query operations and no other
violation — the traversal completes, and the amended theorem applied at
this input yields `OperationCountError`. -/
theorem c5_amended_witness :
    countOpsDoc docW5 = 2 ∧
    validateDocument docW5 varsPF = .error .opCount :=
  ⟨rfl,
    (c5_amended docW5 varsPF (by decide)).2.1 2 rfl⟩

/-! ### Object-literal resolution -/

theorem getLast?_cons_or {α : Type} (a : α) (l : List α) :
    (a :: l).getLast? = l.getLast?.or (some a) := by
  cases l with
  | nil => rfl
  | cons b t =>
    rw [List.getLast?_cons_cons]
    have hs : (b :: t).getLast?.isSome = true := by
      rw [List.getLast?_isSome]
      simp
    obtain ⟨z, hz⟩ := Option.isSome_iff_exists.mp hs
    rw [hz]
    rfl

theorem jsObjSet_keys (k : String) (v : JsValue) :
    ∀ m : List (String × JsValue),
      (jsObjSet m k v).map Prod.fst =
        if (m.map Prod.fst).contains k then m.map Prod.fst
        else m.map Prod.fst ++ [k] := by
  intro m
  induction m with
  | nil => simp [jsObjSet]
  | cons p rest ih =>
    obtain ⟨k', v'⟩ := p
    by_cases h : k' = k
    · subst h
      simp [jsObjSet, List.contains_cons]
    · have hb : (k' == k) = false := by simp [h]
      have hb2 : (k == k') = false := by simp [Ne.symm h]
      simp only [jsObjSet, hb, Bool.false_eq_true, if_false, List.map_cons,
        List.contains_cons, hb2, Bool.false_or, ih]
      by_cases hc : (rest.map Prod.fst).contains k = true
      · rw [if_pos hc, if_pos hc]
      · rw [if_neg hc, if_neg hc, List.cons_append]

theorem jsObjSet_lookup (k' k : String) (v : JsValue) :
    ∀ m, List.lookup k' (jsObjSet m k v) =
      if k' = k then some v else List.lookup k' m := by
  intro m
  induction m with
  | nil =>
    by_cases h : k' = k
    · simp [jsObjSet, List.lookup, h]
    · have hb : (k' == k) = false := by simp [h]
      simp [jsObjSet, List.lookup, h, hb]
  | cons p rest ih =>
    obtain ⟨a, b⟩ := p
    by_cases hak : a = k
    · subst hak
      by_cases h : k' = a
      · simp [jsObjSet, List.lookup, h]
      · have hb' : (k' == a) = false := by simp [h]
        simp [jsObjSet, List.lookup, h, hb']
    · have hb : (a == k) = false := by simp [hak]
      by_cases h : k' = a
      · subst h
        simp [jsObjSet, hb, List.lookup, hak]
      · have hb' : (k' == a) = false := by simp [h]
        simp only [jsObjSet, hb, Bool.false_eq_true, if_false, List.lookup,
          hb', ih]

theorem resolveObjFields_keys (vars : Vars) :
    ∀ (fields : List (String × ValueNode)) (acc : List (String × JsValue)),
      (resolveObjFields vars acc fields).map Prod.fst =
        (fields.map Prod.fst).foldl
          (fun ks n => if ks.contains n then ks else ks ++ [n])
          (acc.map Prod.fst) := by
  intro fields
  induction fields with
  | nil => intro acc; rfl
  | cons p rest ih =>
    intro acc
    obtain ⟨n, v⟩ := p
    simp only [resolveObjFields, List.map_cons, List.foldl_cons]
    rw [ih (jsObjSet acc n (resolveValueNode vars v)),
      jsObjSet_keys n (resolveValueNode vars v) acc]

theorem resolveObjFields_lookup (vars : Vars) (k : String) :
    ∀ (fields : List (String × ValueNode)) (acc : List (String × JsValue)),
      List.lookup k (resolveObjFields vars acc fields) =
        (lastResolved vars k fields).or (List.lookup k acc) := by
  intro fields
  induction fields with
  | nil =>
    intro acc
    simp [resolveObjFields, lastResolved]
  | cons p rest ih =>
    intro acc
    obtain ⟨n, v⟩ := p
    simp only [resolveObjFields]
    rw [ih (jsObjSet acc n (resolveValueNode vars v)),
      jsObjSet_lookup k n (resolveValueNode vars v) acc]
    by_cases h : k = n
    · have hfil : lastResolved vars k ((n, v) :: rest) =
          (lastResolved vars k rest).or
            (some (resolveValueNode vars v)) := by
        simp only [lastResolved, List.filter_cons]
        rw [if_pos (by simp [h.symm]), List.map_cons, getLast?_cons_or]
      rw [hfil, if_pos h, Option.or_assoc]
      congr 1
    · have hfil : lastResolved vars k ((n, v) :: rest) =
          lastResolved vars k rest := by
        simp only [lastResolved, List.filter_cons]
        rw [if_neg (by simp; exact fun hh => h hh.symm)]
      rw [hfil, if_neg h]

/-- Claim C9, amended: resolving an object literal yields a mapping from
field name to recursively resolved value whose keys are the declared names
deduplicated at their first occurrence (declaration order preserved), and
whose value for each name is the resolved value of the *last* field with
that name — duplicates are deduplicated by last-write-wins, not passed
through. -/
theorem c9_amended (vars : Vars) (fields : List (String × ValueNode)) :
    resolveValueNode vars (.objectV fields) =
      .obj (resolveObjFields vars [] fields) ∧
    (resolveObjFields vars [] fields).map Prod.fst =
      firstOccurrences (fields.map Prod.fst) ∧
    ∀ k, List.lookup k (resolveObjFields vars [] fields) =
      lastResolved vars k fields := by
  refine ⟨rfl, ?_, ?_⟩
  · rw [resolveObjFields_keys]
    rfl
  · intro k
    rw [resolveObjFields_lookup]
    simp [List.lookup]

/-! ### Root classification on long and on well-formed chains -/

theorem jsIdx_eq_getElem (l : List Anc) (i : Int) (h0 : 0 ≤ i)
    (h1 : i.toNat < l.length) : jsIdx l i = some l[i.toNat] := by
  unfold jsIdx
  rw [if_pos h0, List.getElem?_eq_getElem h1]

/-- Claim C8, amended: `isInRoot` returns a result (never a runtime error)
on every chain long enough for its positional reads — length at least 7
for a field, at least 4 for a spread — and a spread whose document-check
position holds anything but the document node classifies as
`{ isRoot: false }`.  (On shorter chains the positional read yields
`undefined` and the property access on it is a `TypeError`, as the
counterexample shows, so the claim's totality on arbitrary malformed
chains fails.) -/
theorem c8_amended :
    (∀ (f : Field) (anc : List Anc), 7 ≤ anc.length →
      ∃ r, isInRoot (.field f) anc = .ok r) ∧
    (∀ (n : String) (anc : List Anc), 4 ≤ anc.length →
      ∃ r, isInRoot (.fragmentSpread n) anc = .ok r) ∧
    (∀ (n : String) (anc : List Anc) (d : Anc),
      jsIdx anc ((anc.length : Int) - 4) = some d →
      isDocumentNode d = false →
      isInRoot (.fragmentSpread n) anc = .ok .notRoot) := by
  refine ⟨?_, ?_, ?_⟩
  · intro f anc h7
    have h2 := jsIdx_eq_getElem anc ((anc.length : Int) - 2) (by omega)
      (by omega)
    simp only [isInRoot, h2]
    cases anc[((anc.length : Int) - 2).toNat] with
    | operationDefinition o => exact ⟨_, rfl⟩
    | fragmentDefinition g => exact ⟨_, rfl⟩
    | inlineFragment tc ls =>
      have hd := jsIdx_eq_getElem anc ((anc.length : Int) - 7) (by omega)
        (by omega)
      simp only [hd]
      by_cases hdoc : isDocumentNode anc[((anc.length : Int) - 7).toNat] =
          true
      · rw [if_pos hdoc]
        have h5 := jsIdx_eq_getElem anc ((anc.length : Int) - 5) (by omega)
          (by omega)
        simp only [h5]
        exact ⟨_, rfl⟩
      · rw [if_neg hdoc]
        exact ⟨.notRoot, rfl⟩
    | document d => exact ⟨.notRoot, rfl⟩
    | definitions l => exact ⟨.notRoot, rfl⟩
    | selectionSet s => exact ⟨.notRoot, rfl⟩
    | selections l => exact ⟨.notRoot, rfl⟩
    | field f' => exact ⟨.notRoot, rfl⟩
  · intro n anc h4
    have hd := jsIdx_eq_getElem anc ((anc.length : Int) - 4) (by omega)
      (by omega)
    simp only [isInRoot, hd]
    by_cases hdoc : isDocumentNode anc[((anc.length : Int) - 4).toNat] =
        true
    · rw [if_pos hdoc]
      have h2 := jsIdx_eq_getElem anc ((anc.length : Int) - 2) (by omega)
        (by omega)
      simp only [h2]
      exact ⟨_, rfl⟩
    · rw [if_neg hdoc]
      exact ⟨.notRoot, rfl⟩
  · intro n anc d hd hdocF
    simp only [isInRoot, hd]
    rw [if_neg (by rw [hdocF]; exact Bool.false_ne_true)]

/-- Claim C8, witness: the amended theorem applied to a spread on the
scenario document's genuine four-entry root chain. -/
theorem c8_amended_witness :
    4 ≤ ancMyType.length ∧
    ∃ r, isInRoot (.fragmentSpread "X") ancMyType = .ok r :=
  ⟨by decide, c8_amended.2.1 "X" ancMyType (by decide)⟩

theorem jsIdx_rev (R : List Anc) (k : Nat) (hk : 1 ≤ k) :
    jsIdx R.reverse ((R.reverse.length : Int) - (k : Int)) = R[k - 1]? := by
  rw [List.length_reverse]
  by_cases h : k ≤ R.length
  · have h0 : (0 : Int) ≤ (R.length : Int) - (k : Int) := by omega
    unfold jsIdx
    rw [if_pos h0]
    have ht : ((R.length : Int) - (k : Int)).toNat = R.length - k := by
      omega
    rw [ht]
    have hlt : R.length - k < R.length := by omega
    rw [List.getElem?_reverse hlt]
    congr 1
    omega
  · have h0 : ¬ (0 : Int) ≤ (R.length : Int) - (k : Int) := by omega
    unfold jsIdx
    rw [if_neg h0]
    symm
    exact List.getElem?_eq_none (by omega)

theorem jsIdx_rev_two (R : List Anc) :
    jsIdx R.reverse ((R.reverse.length : Int) - 2) = R[1]? := by
  simpa using jsIdx_rev R 2 (by omega)

theorem jsIdx_rev_four (R : List Anc) :
    jsIdx R.reverse ((R.reverse.length : Int) - 4) = R[3]? := by
  simpa using jsIdx_rev R 4 (by omega)

theorem jsIdx_rev_five (R : List Anc) :
    jsIdx R.reverse ((R.reverse.length : Int) - 5) = R[4]? := by
  simpa using jsIdx_rev R 5 (by omega)

theorem jsIdx_rev_seven (R : List Anc) :
    jsIdx R.reverse ((R.reverse.length : Int) - 7) = R[6]? := by
  simpa using jsIdx_rev R 7 (by omega)

theorem isInRoot_field_eval (f : Field) (R : List Anc) :
    isInRoot (.field f) R.reverse =
      (match R[1]? with
       | none => .error .typeError
       | some container =>
         match container with
         | .operationDefinition _ => .ok (.root container)
         | .fragmentDefinition _ => .ok (.root container)
         | .inlineFragment _ _ =>
           match R[6]? with
           | none => .error .typeError
           | some d =>
             if isDocumentNode d then
               match R[4]? with
               | some c => .ok (.root c)
               | none => .error .typeError
             else .ok .notRoot
         | _ => .ok .notRoot) := by
  simp only [isInRoot, jsIdx_rev_two, jsIdx_rev_five, jsIdx_rev_seven]

theorem isInRoot_spread_eval (n : String) (R : List Anc) :
    isInRoot (.fragmentSpread n) R.reverse =
      (match R[3]? with
       | none => .error .typeError
       | some d =>
         if isDocumentNode d then
           match R[1]? with
           | some c => .ok (.root c)
           | none => .error .typeError
         else .ok .notRoot) := by
  simp only [isInRoot, jsIdx_rev_two, jsIdx_rev_four]

theorem rchain_length_ge (R : List Anc) (h : RChain R) : 4 ≤ R.length := by
  induction h with
  | baseOp d l o s => simp
  | baseFrag d l f s => simp
  | consField s sl f rest h ih => simp only [List.length_cons]; omega
  | consInline s sl tc isels rest h ih =>
      simp only [List.length_cons]; omega

theorem rchain_head (R : List Anc) (h : RChain R) :
    ∃ s, R[0]? = some (Anc.selectionSet s) := by
  cases h with
  | baseOp d l o s => exact ⟨s, rfl⟩
  | baseFrag d l f s => exact ⟨s, rfl⟩
  | consField s sl f rest h => exact ⟨s, rfl⟩
  | consInline s sl tc isels rest h => exact ⟨s, rfl⟩

theorem rchain_elem3 (rest : List Anc) (h : RChain rest) :
    (∃ d c, rest[3]? = some (Anc.document d) ∧ rest[1]? = some c ∧
      rest.length = 4) ∨
    (∃ s', rest[3]? = some (Anc.selectionSet s') ∧ 7 ≤ rest.length) := by
  cases h with
  | baseOp d l o s => exact Or.inl ⟨d, _, rfl, rfl, rfl⟩
  | baseFrag d l f s => exact Or.inl ⟨d, _, rfl, rfl, rfl⟩
  | consField s sl f rest' h' =>
    obtain ⟨s0, hs0⟩ := rchain_head rest' h'
    refine Or.inr ⟨s0, ?_, ?_⟩
    · simp only [List.getElem?_cons_succ]
      exact hs0
    · have := rchain_length_ge rest' h'
      simp only [List.length_cons]
      omega
  | consInline s sl tc isels rest' h' =>
    obtain ⟨s0, hs0⟩ := rchain_head rest' h'
    refine Or.inr ⟨s0, ?_, ?_⟩
    · simp only [List.getElem?_cons_succ]
      exact hs0
    · have := rchain_length_ge rest' h'
      simp only [List.length_cons]
      omega

/-- Claim C2, amended: on every well-formed ancestor chain (shape
`RChain`, read back-to-front), `isInRoot` returns a result, and classifies
as root exactly: a field directly at the root of its enclosing definition
(chain length 4), a field below exactly one inline fragment at the root
(chain length 7), and a fragment spread directly at the root (chain
length 4).  Fields below two or more inline-fragment layers, and spreads
below any inline fragment, classify as not-root even though no field lies
between them and the definition, so the claimed transparency "at any
nesting depth" does not hold. -/
theorem c2_amended (R : List Anc) (node : SelNode) (h : RChain R) :
    (∃ r, isInRoot node R.reverse = .ok r) ∧
    ((∃ c, isInRoot node R.reverse = .ok (.root c)) ↔
      rootCondAmended node R) := by
  cases node with
  | field f =>
    rw [isInRoot_field_eval]
    cases h with
    | baseOp d l o s =>
      refine ⟨⟨.root (.operationDefinition o), rfl⟩, ?_⟩
      constructor
      · intro _
        exact Or.inl ⟨f, rfl, Or.inl rfl⟩
      · intro _
        exact ⟨.operationDefinition o, rfl⟩
    | baseFrag d l g s =>
      refine ⟨⟨.root (.fragmentDefinition g), rfl⟩, ?_⟩
      constructor
      · intro _
        exact Or.inl ⟨f, rfl, Or.inl rfl⟩
      · intro _
        exact ⟨.fragmentDefinition g, rfl⟩
    | consField s sl f' rest h' =>
      refine ⟨⟨.notRoot, rfl⟩, ?_⟩
      constructor
      · rintro ⟨c, hc⟩
        injection hc with h2
        exact RootResult.noConfusion h2
      · rintro (⟨f'', hf, hlen⟩ | ⟨n, hn, _⟩)
        · rcases hlen with h4 | ⟨h7, tc, ls, h1⟩
          · have := rchain_length_ge rest h'
            simp only [List.length_cons] at h4
            omega
          · simp only [List.getElem?_cons_succ, List.getElem?_cons_zero]
              at h1
            injection h1 with h2
            exact Anc.noConfusion h2
        · exact SelNode.noConfusion hn
    | consInline s sl tc0 isels rest h' =>
      rcases rchain_elem3 rest h' with ⟨d0, c0, h3, h1r, hlen4⟩ |
        ⟨s0, h3, hlen7⟩
      · simp only [List.getElem?_cons_succ, List.getElem?_cons_zero]
        rw [h3]
        dsimp only
        rw [if_pos (show isDocumentNode (Anc.document d0) = true from rfl),
          h1r]
        refine ⟨⟨.root c0, rfl⟩, ?_⟩
        constructor
        · intro _
          refine Or.inl ⟨f, rfl, Or.inr ⟨?_, tc0, isels, rfl⟩⟩
          simp [List.length_cons, hlen4]
        · intro _
          exact ⟨c0, rfl⟩
      · simp only [List.getElem?_cons_succ, List.getElem?_cons_zero]
        rw [h3]
        dsimp only
        rw [if_neg (by simp [isDocumentNode])]
        refine ⟨⟨.notRoot, rfl⟩, ?_⟩
        constructor
        · rintro ⟨c, hc⟩
          injection hc with h2
          exact RootResult.noConfusion h2
        · rintro (⟨f'', hf, hlen⟩ | ⟨n, hn, _⟩)
          · rcases hlen with h4 | ⟨h7, tc, ls, h1⟩
            · simp only [List.length_cons] at h4
              omega
            · simp only [List.length_cons] at h7
              omega
          · exact SelNode.noConfusion hn
  | fragmentSpread n =>
    rw [isInRoot_spread_eval]
    cases h with
    | baseOp d l o s =>
      refine ⟨⟨.root (.operationDefinition o), rfl⟩, ?_⟩
      constructor
      · intro _
        exact Or.inr ⟨n, rfl, rfl⟩
      · intro _
        exact ⟨.operationDefinition o, rfl⟩
    | baseFrag d l g s =>
      refine ⟨⟨.root (.fragmentDefinition g), rfl⟩, ?_⟩
      constructor
      · intro _
        exact Or.inr ⟨n, rfl, rfl⟩
      · intro _
        exact ⟨.fragmentDefinition g, rfl⟩
    | consField s sl f' rest h' =>
      obtain ⟨s0, hs0⟩ := rchain_head rest h'
      simp only [List.getElem?_cons_succ]
      rw [hs0]
      dsimp only
      rw [if_neg (by simp [isDocumentNode])]
      refine ⟨⟨.notRoot, rfl⟩, ?_⟩
      constructor
      · rintro ⟨c, hc⟩
        injection hc with h2
        exact RootResult.noConfusion h2
      · rintro (⟨f'', hf, _⟩ | ⟨n', hn, hlen⟩)
        · exact SelNode.noConfusion hf
        · have := rchain_length_ge rest h'
          simp only [List.length_cons] at hlen
          omega
    | consInline s sl tc isels rest h' =>
      obtain ⟨s0, hs0⟩ := rchain_head rest h'
      simp only [List.getElem?_cons_succ]
      rw [hs0]
      dsimp only
      rw [if_neg (by simp [isDocumentNode])]
      refine ⟨⟨.notRoot, rfl⟩, ?_⟩
      constructor
      · rintro ⟨c, hc⟩
        injection hc with h2
        exact RootResult.noConfusion h2
      · rintro (⟨f'', hf, _⟩ | ⟨n', hn, hlen⟩)
        · exact SelNode.noConfusion hf
        · have := rchain_length_ge rest h'
          simp only [List.length_cons] at hlen
          omega

/-- Claim C2, witness: the amended theorem applied to the scenario
document's genuine root chain (read back-to-front) classifies the field
`myType` as at the operation root. -/
theorem c2_amended_witness :
    (∃ r, isInRoot (.field fMyTypeField) r0Chain.reverse = .ok r) ∧
    ((∃ c, isInRoot (.field fMyTypeField) r0Chain.reverse =
        .ok (.root c)) ↔
      rootCondAmended (.field fMyTypeField) r0Chain) :=
  c2_amended r0Chain (.field fMyTypeField)
    (RChain.baseOp docScen docScen.definitions opScen opScen.selectionSet)
